import Mathlib

/-!
Verification of the per-key sliding-window rate limiter
(`src/utils/rate_limiter.py`, class `RateLimiter`).

The Python class keeps `storage`, a `defaultdict(list)` mapping each key to
the list of admission timestamps, plus the configuration `calls` (maximum
admissions per window) and `period` (window width in seconds).  We embed the
state shallowly: `vals` gives the list stored under each key and `dom`
records which keys are present in the dictionary (a `defaultdict` inserts an
empty entry whenever a missing key is read).  Timestamps are rationals,
standing for the real-valued clock readings of `time.time()`.
-/

namespace DevSyncAI

/-- Rate-limit keys are opaque strings (IP addresses, user ids, ...). -/
abbrev Key := String

/-- State of a `RateLimiter` instance: configuration plus the `storage`
dictionary, split into the stored lists (`vals`) and the set of keys present
in the dictionary (`dom`). -/
structure RateLimiter where
  calls : ℤ
  period : ℤ
  vals : Key → List ℚ
  dom : Key → Bool

/-- Dictionary lookup as a value: a key absent from the dictionary reads as
the empty list (the `defaultdict(list)` default). -/
def dget (rl : RateLimiter) (key : Key) : List ℚ :=
  if rl.dom key then rl.vals key else []

/-- Dictionary assignment `self.storage[key] = v`. -/
def dset (rl : RateLimiter) (key : Key) (v : List ℚ) : RateLimiter :=
  { rl with
    vals := fun k => if k = key then v else rl.vals k,
    dom := fun k => if k = key then true else rl.dom k }

/-- Effect on the store of merely reading `self.storage[key]`: a
`defaultdict` inserts an empty entry for a missing key. -/
def dtouch (rl : RateLimiter) (key : Key) : RateLimiter :=
  dset rl key (dget rl key)

/-- Embedding of `RateLimiter.__init__`: validates `calls >= 1` and
`period >= 1`, otherwise raises `ValueError`; on success the storage starts
empty. -/
def mkRateLimiter (calls period : ℤ) : Except String RateLimiter :=
  if calls < 1 then Except.error "calls debe ser mayor que 0"
  else if period < 1 then Except.error "period debe ser mayor que 0"
  else Except.ok { calls := calls, period := period, vals := fun _ => [], dom := fun _ => false }

/-- Embedding of `RateLimiter._clean_old_records`: keeps exactly the
timestamps strictly greater than `now - period` (the list comprehension
`[ts for ts in self.storage[key] if ts > cutoff]`, written back into the
dictionary). -/
def cleanOldRecords (rl : RateLimiter) (key : Key) (now : ℚ) : RateLimiter :=
  let cutoff : ℚ := now - (rl.period : ℚ)
  dset rl key ((dget rl key).filter (fun ts => decide (cutoff < ts)))

/-- Embedding of `RateLimiter.is_allowed` at a given clock reading `now`:
prune, count, and append `now` when the count is below `calls`.  Returns the
boolean result together with the successor state. -/
def is_allowed (rl : RateLimiter) (key : Key) (now : ℚ) : Bool × RateLimiter :=
  let rl1 := cleanOldRecords rl key now
  let currentCalls := (dget rl1 key).length
  if (currentCalls : ℤ) < rl.calls then
    (true, dset rl1 key (dget rl1 key ++ [now]))
  else
    (false, rl1)

/-- Embedding of `RateLimiter.get_remaining_calls`: prune, then report
`max(0, self.calls - len(self.storage[key]))`. -/
def get_remaining_calls (rl : RateLimiter) (key : Key) (now : ℚ) : ℤ × RateLimiter :=
  let rl1 := cleanOldRecords rl key now
  (max 0 (rl.calls - ((dget rl1 key).length : ℤ)), rl1)

/-- Minimum of a list of rationals, as Python's `min` on a non-empty list
(the `[]` case is arbitrary; `get_reset_time` only calls it on non-empty
lists). -/
def listMin : List ℚ → ℚ
  | [] => 0
  | x :: xs => xs.foldl min x

/-- Embedding of `RateLimiter.get_reset_time`: no pruning happens; reading
`self.storage[key]` inserts an empty entry for a missing key, then the
method returns `None` for an empty list and otherwise
`max(0, min(storage[key]) + period - time.time())`. -/
def get_reset_time (rl : RateLimiter) (key : Key) (now : ℚ) : Option ℚ × RateLimiter :=
  let records := dget rl key
  let rl1 := dtouch rl key
  if records.isEmpty then (none, rl1)
  else (some (max 0 (listMin records + (rl.period : ℚ) - now)), rl1)

/-- The three public operations, as trace events. -/
inductive OpKind where
  | allowOp
  | remainingOp
  | resetOp
deriving DecidableEq

/-- One public call: which operation, on which key, at which clock reading. -/
structure Event where
  op : OpKind
  key : Key
  time : ℚ

/-- State transition of one public call (the returned value is dropped). -/
def stepSt (rl : RateLimiter) (e : Event) : RateLimiter :=
  match e.op with
  | OpKind.allowOp => (is_allowed rl e.key e.time).2
  | OpKind.remainingOp => (get_remaining_calls rl e.key e.time).2
  | OpKind.resetOp => (get_reset_time rl e.key e.time).2

/-- Run a trace of public calls from a state. -/
def runSt (rl : RateLimiter) (tr : List Event) : RateLimiter := tr.foldl stepSt rl

/-- Timestamps of the `is_allowed` calls in the trace that return `true`
for the given key, in trace order. -/
def granted : RateLimiter → List Event → Key → List ℚ
  | _, [], _ => []
  | rl, e :: es, k =>
    (if e.op = OpKind.allowOp ∧ e.key = k ∧ (is_allowed rl e.key e.time).1 = true
     then [e.time] else []) ++ granted (stepSt rl e) es k

/-- The clock readings of a trace are bounded below by `T` and
non-decreasing along the trace. -/
def timesLB : ℚ → List Event → Prop
  | _, [] => True
  | T, e :: es => T ≤ e.time ∧ timesLB e.time es

/-- Membership test for the sliding window `(W - period, W]`. -/
def inWindow (period : ℤ) (W t : ℚ) : Bool :=
  decide (W - (period : ℚ) < t) && decide (t ≤ W)

/-! ## Basic dictionary lemmas -/

theorem dget_dset_self (rl : RateLimiter) (key : Key) (v : List ℚ) :
    dget (dset rl key v) key = v := by
  simp [dget, dset]

theorem dget_dset_ne (rl : RateLimiter) (key k : Key) (v : List ℚ) (h : k ≠ key) :
    dget (dset rl key v) k = dget rl k := by
  simp [dget, dset, h]

theorem dset_calls (rl : RateLimiter) (key : Key) (v : List ℚ) :
    (dset rl key v).calls = rl.calls := rfl

theorem dset_period (rl : RateLimiter) (key : Key) (v : List ℚ) :
    (dset rl key v).period = rl.period := rfl

theorem dget_dtouch (rl : RateLimiter) (key k : Key) :
    dget (dtouch rl key) k = dget rl k := by
  by_cases h : k = key
  · subst h; simp [dtouch, dget_dset_self]
  · simp [dtouch, dget_dset_ne _ _ _ _ h]

theorem clean_dget_self (rl : RateLimiter) (key : Key) (now : ℚ) :
    dget (cleanOldRecords rl key now) key =
      (dget rl key).filter (fun ts => decide (now - (rl.period : ℚ) < ts)) := by
  simp [cleanOldRecords, dget_dset_self]

theorem clean_dget_ne (rl : RateLimiter) (key k : Key) (now : ℚ) (h : k ≠ key) :
    dget (cleanOldRecords rl key now) k = dget rl k := by
  simp [cleanOldRecords, dget_dset_ne _ _ _ _ h]

theorem clean_calls (rl : RateLimiter) (key : Key) (now : ℚ) :
    (cleanOldRecords rl key now).calls = rl.calls := rfl

theorem clean_period (rl : RateLimiter) (key : Key) (now : ℚ) :
    (cleanOldRecords rl key now).period = rl.period := rfl

/-! ## Result and state formulas for the three public operations -/

theorem is_allowed_fst (rl : RateLimiter) (key : Key) (now : ℚ) :
    (is_allowed rl key now).1 =
      decide ((((dget rl key).filter (fun ts => decide (now - (rl.period : ℚ) < ts))).length : ℤ)
        < rl.calls) := by
  simp only [is_allowed, clean_dget_self]
  by_cases h :
      (((dget rl key).filter (fun ts => decide (now - (rl.period : ℚ) < ts))).length : ℤ)
        < rl.calls
  · simp [h]
  · simp [h]

theorem is_allowed_snd (rl : RateLimiter) (key : Key) (now : ℚ) :
    (is_allowed rl key now).2 =
      if (((dget rl key).filter (fun ts => decide (now - (rl.period : ℚ) < ts))).length : ℤ)
          < rl.calls
      then dset (cleanOldRecords rl key now) key
        ((dget rl key).filter (fun ts => decide (now - (rl.period : ℚ) < ts)) ++ [now])
      else cleanOldRecords rl key now := by
  simp only [is_allowed, clean_dget_self]
  by_cases h :
      (((dget rl key).filter (fun ts => decide (now - (rl.period : ℚ) < ts))).length : ℤ)
        < rl.calls
  · simp [h]
  · simp [h]

theorem is_allowed_dget_self (rl : RateLimiter) (key : Key) (now : ℚ) :
    dget (is_allowed rl key now).2 key =
      if (((dget rl key).filter (fun ts => decide (now - (rl.period : ℚ) < ts))).length : ℤ)
          < rl.calls
      then (dget rl key).filter (fun ts => decide (now - (rl.period : ℚ) < ts)) ++ [now]
      else (dget rl key).filter (fun ts => decide (now - (rl.period : ℚ) < ts)) := by
  rw [is_allowed_snd]
  by_cases h :
      (((dget rl key).filter (fun ts => decide (now - (rl.period : ℚ) < ts))).length : ℤ)
        < rl.calls
  · simp [h, dget_dset_self]
  · simp [h, clean_dget_self]

theorem is_allowed_dget_ne (rl : RateLimiter) (key k : Key) (now : ℚ) (h : k ≠ key) :
    dget (is_allowed rl key now).2 k = dget rl k := by
  rw [is_allowed_snd]
  split
  · rw [dget_dset_ne _ _ _ _ h, clean_dget_ne _ _ _ _ h]
  · rw [clean_dget_ne _ _ _ _ h]

theorem is_allowed_calls (rl : RateLimiter) (key : Key) (now : ℚ) :
    ((is_allowed rl key now).2).calls = rl.calls := by
  rw [is_allowed_snd]; split <;> rfl

theorem is_allowed_period (rl : RateLimiter) (key : Key) (now : ℚ) :
    ((is_allowed rl key now).2).period = rl.period := by
  rw [is_allowed_snd]; split <;> rfl

theorem remaining_fst (rl : RateLimiter) (key : Key) (now : ℚ) :
    (get_remaining_calls rl key now).1 =
      max 0 (rl.calls -
        (((dget rl key).filter (fun ts => decide (now - (rl.period : ℚ) < ts))).length : ℤ)) := by
  simp [get_remaining_calls, clean_dget_self]

theorem remaining_snd (rl : RateLimiter) (key : Key) (now : ℚ) :
    (get_remaining_calls rl key now).2 = cleanOldRecords rl key now := rfl

theorem reset_fst (rl : RateLimiter) (key : Key) (now : ℚ) :
    (get_reset_time rl key now).1 =
      if (dget rl key).isEmpty then none
      else some (max 0 (listMin (dget rl key) + (rl.period : ℚ) - now)) := by
  simp only [get_reset_time]
  by_cases h : (dget rl key).isEmpty
  · simp [h]
  · simp [h]

theorem reset_snd (rl : RateLimiter) (key : Key) (now : ℚ) :
    (get_reset_time rl key now).2 = dtouch rl key := by
  simp only [get_reset_time]
  by_cases h : (dget rl key).isEmpty
  · simp [h]
  · simp [h]

theorem stepSt_calls (rl : RateLimiter) (e : Event) : (stepSt rl e).calls = rl.calls := by
  cases h : e.op <;>
    simp [stepSt, h, is_allowed_calls, remaining_snd, reset_snd, clean_calls, dtouch, dset_calls]

theorem stepSt_period (rl : RateLimiter) (e : Event) : (stepSt rl e).period = rl.period := by
  cases h : e.op <;>
    simp [stepSt, h, is_allowed_period, remaining_snd, reset_snd, clean_period, dtouch, dset_period]

theorem stepSt_dget_ne (rl : RateLimiter) (e : Event) (k : Key) (h : k ≠ e.key) :
    dget (stepSt rl e) k = dget rl k := by
  cases ho : e.op <;>
    simp [stepSt, ho, is_allowed_dget_ne _ _ _ _ h, remaining_snd, reset_snd,
      clean_dget_ne _ _ _ _ h, dget_dtouch]

theorem dom_dset_self (rl : RateLimiter) (key : Key) (v : List ℚ) :
    (dset rl key v).dom key = true := by
  simp [dset]

theorem dom_dset_ne (rl : RateLimiter) (key k : Key) (v : List ℚ) (h : k ≠ key) :
    (dset rl key v).dom k = rl.dom k := by
  simp [dset, h]

theorem dom_clean_self (rl : RateLimiter) (key : Key) (now : ℚ) :
    (cleanOldRecords rl key now).dom key = true :=
  dom_dset_self _ _ _

theorem dom_clean_ne (rl : RateLimiter) (key k : Key) (now : ℚ) (h : k ≠ key) :
    (cleanOldRecords rl key now).dom k = rl.dom k :=
  dom_dset_ne _ _ _ _ h

/-! ## Minimum of a list, as Python's `min` -/

theorem foldl_min_le_init (l : List ℚ) (a : ℚ) : l.foldl min a ≤ a := by
  induction l generalizing a with
  | nil => exact le_refl a
  | cons x xs ih =>
    calc (x :: xs).foldl min a = xs.foldl min (min a x) := rfl
    _ ≤ min a x := ih (min a x)
    _ ≤ a := min_le_left a x

theorem foldl_min_le_mem (l : List ℚ) (a x : ℚ) (hx : x ∈ l) : l.foldl min a ≤ x := by
  induction l generalizing a with
  | nil => cases hx
  | cons y ys ih =>
    rcases List.mem_cons.mp hx with h | h
    · subst h
      calc (x :: ys).foldl min a = ys.foldl min (min a x) := rfl
      _ ≤ min a x := foldl_min_le_init ys (min a x)
      _ ≤ x := min_le_right a x
    · exact ih (min a y) h

theorem foldl_min_mem (l : List ℚ) (a : ℚ) : l.foldl min a = a ∨ l.foldl min a ∈ l := by
  induction l generalizing a with
  | nil => exact Or.inl rfl
  | cons y ys ih =>
    rcases ih (min a y) with h | h
    · rcases min_choice a y with hm | hm
      · exact Or.inl (by rw [List.foldl_cons, h, hm])
      · exact Or.inr (by rw [List.foldl_cons, h, hm]; exact List.mem_cons_self y ys)
    · exact Or.inr (List.mem_cons_of_mem y h)

theorem listMin_mem (l : List ℚ) (h : l ≠ []) : listMin l ∈ l := by
  cases l with
  | nil => exact absurd rfl h
  | cons x xs =>
    rcases foldl_min_mem xs x with h1 | h1
    · rw [listMin, h1]; exact List.mem_cons_self x xs
    · rw [listMin]; exact List.mem_cons_of_mem x h1

theorem listMin_le (l : List ℚ) (t : ℚ) (ht : t ∈ l) : listMin l ≤ t := by
  cases l with
  | nil => cases ht
  | cons x xs =>
    rcases List.mem_cons.mp ht with h | h
    · subst h; exact foldl_min_le_init xs t
    · exact foldl_min_le_mem xs x t h

/-! ## The constructor -/

/-- A freshly constructed limiter: empty dictionary. -/
def freshLimiter (c p : ℤ) : RateLimiter :=
  { calls := c, period := p, vals := fun _ => [], dom := fun _ => false }

theorem mk_ok_cases (c p : ℤ) (rl0 : RateLimiter)
    (h : mkRateLimiter c p = Except.ok rl0) :
    1 ≤ c ∧ 1 ≤ p ∧ rl0 = freshLimiter c p := by
  by_cases hc : c < 1
  · rw [mkRateLimiter, if_pos hc] at h; cases h
  · by_cases hp : p < 1
    · rw [mkRateLimiter, if_neg hc, if_pos hp] at h; cases h
    · rw [mkRateLimiter, if_neg hc, if_neg hp] at h
      refine ⟨by omega, by omega, ?_⟩
      cases h; rfl

/-! ## Claim C3: pruning keeps exactly the half-open window -/

/-- Claim C3: pruning a key's history at time `now` removes exactly the
timestamps `t` with `t ≤ now - period`; under the precondition that every
stored timestamp is at most `now`, the surviving sequence is exactly the
timestamps in the half-open interval `(now - period, now]`, and a timestamp
exactly equal to `now - period` is pruned. -/
theorem clean_old_records_halfopen (rl : RateLimiter) (key : Key) (now : ℚ)
    (h : ∀ ts ∈ dget rl key, ts ≤ now) :
    (∀ ts : ℚ, ts ∈ dget (cleanOldRecords rl key now) key ↔
      (ts ∈ dget rl key ∧ now - (rl.period : ℚ) < ts ∧ ts ≤ now)) ∧
    (now - (rl.period : ℚ)) ∉ dget (cleanOldRecords rl key now) key := by
  constructor
  · intro ts
    rw [clean_dget_self]
    simp only [List.mem_filter, decide_eq_true_eq]
    constructor
    · rintro ⟨hmem, hlt⟩
      exact ⟨hmem, hlt, h ts hmem⟩
    · rintro ⟨hmem, hlt, _⟩
      exact ⟨hmem, hlt⟩
  · intro hmem
    rw [clean_dget_self] at hmem
    simp only [List.mem_filter, decide_eq_true_eq] at hmem
    exact lt_irrefl _ hmem.2

/-- A concrete state for exercising the pruning boundary: window of 60
seconds, stored timestamps 40, 90 and 100. -/
def rlBoundary : RateLimiter :=
  { calls := 5, period := 60, vals := fun _ => [40, 90, 100], dom := fun _ => true }

/-- Witness for C3: at clock reading 100 the timestamp 40 sits exactly on
the boundary `now - period` and is pruned, while 90 survives. -/
theorem clean_old_records_halfopen_witness :
    (90 : ℚ) ∈ dget (cleanOldRecords rlBoundary "k" 100) "k" ∧
    (40 : ℚ) ∉ dget (cleanOldRecords rlBoundary "k" 100) "k" := by
  have hd : dget rlBoundary "k" = [40, 90, 100] := rfl
  have hp : (rlBoundary.period : ℚ) = 60 := by norm_num [rlBoundary]
  have h := clean_old_records_halfopen rlBoundary "k" 100 (by
    rw [hd]
    intro ts hts
    simp only [List.mem_cons, List.not_mem_nil, or_false] at hts
    rcases hts with h1 | h1 | h1 <;> rw [h1] <;> norm_num)
  constructor
  · refine (h.1 90).mpr ⟨by rw [hd]; simp, ?_, by norm_num⟩
    rw [hp]; norm_num
  · intro hm
    have h40 := ((h.1 40).mp hm).2.1
    rw [hp] at h40
    norm_num at h40

/-! ## Claim C6: construction validation; denial is a plain result -/

/-- Claim C6: construction fails with a configuration error exactly when
`calls < 1` or `period < 1` (so `0` and negative values fail, `1` and `1`
succeed), and a denied `is_allowed` call is an ordinary `false` result paired
with the pruned state — never an exceptional outcome. -/
theorem construction_validation :
    (∀ c p : ℤ, (mkRateLimiter c p).isOk = true ↔ 1 ≤ c ∧ 1 ≤ p) ∧
    (∀ (rl : RateLimiter) (key : Key) (now : ℚ),
      ¬ ((((dget rl key).filter (fun ts => decide (now - (rl.period : ℚ) < ts))).length : ℤ)
          < rl.calls) →
      is_allowed rl key now = (false, cleanOldRecords rl key now)) := by
  constructor
  · intro c p
    by_cases hc : c < 1
    · rw [mkRateLimiter, if_pos hc]
      simp only [Except.isOk]
      constructor
      · intro h; cases h
      · intro h; omega
    · by_cases hp : p < 1
      · rw [mkRateLimiter, if_neg hc, if_pos hp]
        simp only [Except.isOk]
        constructor
        · intro h; cases h
        · intro h; omega
      · rw [mkRateLimiter, if_neg hc, if_neg hp]
        simp only [Except.isOk]
        constructor
        · intro _; omega
        · intro _; rfl
  · intro rl key now h
    have h1 : (is_allowed rl key now).1 = false := by
      rw [is_allowed_fst]
      simpa using h
    have h2 : (is_allowed rl key now).2 = cleanOldRecords rl key now := by
      rw [is_allowed_snd, if_neg h]
    calc is_allowed rl key now
        = ((is_allowed rl key now).1, (is_allowed rl key now).2) := rfl
    _ = (false, cleanOldRecords rl key now) := by rw [h1, h2]

/-- A saturated one-call limiter state: capacity 1, window 60, one stored
in-window timestamp. -/
def rlFull : RateLimiter :=
  { calls := 1, period := 60, vals := fun _ => [0], dom := fun _ => true }

/-- Witness for C6: `RateLimiter(1, 1)` constructs successfully, and a
denied call on a saturated limiter returns the plain pair
`(false, pruned state)`. -/
theorem construction_validation_witness :
    (mkRateLimiter 1 1).isOk = true ∧
    is_allowed rlFull "k" 0 = (false, cleanOldRecords rlFull "k" 0) := by
  constructor
  · exact (construction_validation.1 1 1).mpr (by norm_num)
  · refine construction_validation.2 rlFull "k" 0 ?_
    have hd : dget rlFull "k" = [0] := rfl
    have hp : (rlFull.period : ℚ) = 60 := by norm_num [rlFull]
    have hc : rlFull.calls = 1 := rfl
    rw [hd, hp, hc]
    norm_num [List.filter_cons]

/-! ## Claim C2: behavior of `is_allowed` -/

/-- Claim C2: `is_allowed` prunes the key's history at the captured time
`now`, grants (appending `now` to the pruned history) exactly when the
pruned count is strictly below `calls`, and on denial leaves the state
exactly as pruning left it; on a limiter built as `RateLimiter(2, 60)`,
three immediate `is_allowed "k"` calls yield `true, true, false`, and the
remaining quota afterwards is `0`. -/
theorem is_allowed_behavior (rl : RateLimiter) (key : Key) (now : ℚ) :
    (((is_allowed rl key now).1 = true ↔
        (((dget rl key).filter (fun ts => decide (now - (rl.period : ℚ) < ts))).length : ℤ)
          < rl.calls) ∧
      ((is_allowed rl key now).1 = true →
        dget (is_allowed rl key now).2 key =
          (dget rl key).filter (fun ts => decide (now - (rl.period : ℚ) < ts)) ++ [now]) ∧
      ((is_allowed rl key now).1 = false →
        (is_allowed rl key now).2 = cleanOldRecords rl key now)) ∧
    (∀ rl2, mkRateLimiter 2 60 = Except.ok rl2 →
      (is_allowed rl2 "k" 0).1 = true ∧
      (is_allowed (is_allowed rl2 "k" 0).2 "k" 0).1 = true ∧
      (is_allowed (is_allowed (is_allowed rl2 "k" 0).2 "k" 0).2 "k" 0).1 = false ∧
      (get_remaining_calls
        (is_allowed (is_allowed (is_allowed rl2 "k" 0).2 "k" 0).2 "k" 0).2 "k" 0).1 = 0) := by
  refine ⟨⟨?_, ?_, ?_⟩, ?_⟩
  · rw [is_allowed_fst]; simp
  · intro h
    rw [is_allowed_dget_self, if_pos ?_]
    rw [is_allowed_fst] at h
    simpa using h
  · intro h
    rw [is_allowed_snd, if_neg ?_]
    rw [is_allowed_fst] at h
    simpa using h
  · intro rl2 hmk
    obtain ⟨-, -, rfl⟩ := mk_ok_cases 2 60 rl2 hmk
    have h0 : dget (freshLimiter 2 60) "k" = ([] : List ℚ) := rfl
    have hp0 : ((freshLimiter 2 60).period : ℚ) = 60 := by norm_num [freshLimiter]
    have hc0 : (freshLimiter 2 60).calls = 2 := rfl
    -- first call: granted
    have hb1 : (is_allowed (freshLimiter 2 60) "k" 0).1 = true := by
      rw [is_allowed_fst, h0, hc0]
      norm_num
    have hs1 : dget (is_allowed (freshLimiter 2 60) "k" 0).2 "k" = [(0 : ℚ)] := by
      rw [is_allowed_dget_self, h0, hc0]
      norm_num
    have hp1 : (((is_allowed (freshLimiter 2 60) "k" 0).2).period : ℚ) = 60 := by
      rw [is_allowed_period]; exact hp0
    have hc1 : ((is_allowed (freshLimiter 2 60) "k" 0).2).calls = 2 := by
      rw [is_allowed_calls]; exact hc0
    -- second call: granted
    have hb2 : (is_allowed (is_allowed (freshLimiter 2 60) "k" 0).2 "k" 0).1 = true := by
      rw [is_allowed_fst, hs1, hp1, hc1]
      norm_num [List.filter_cons]
    have hs2 : dget (is_allowed (is_allowed (freshLimiter 2 60) "k" 0).2 "k" 0).2 "k"
        = [(0 : ℚ), 0] := by
      rw [is_allowed_dget_self, hs1, hp1, hc1]
      norm_num [List.filter_cons]
    have hp2 : (((is_allowed (is_allowed (freshLimiter 2 60) "k" 0).2 "k" 0).2).period : ℚ)
        = 60 := by
      rw [is_allowed_period]; exact hp1
    have hc2 : ((is_allowed (is_allowed (freshLimiter 2 60) "k" 0).2 "k" 0).2).calls = 2 := by
      rw [is_allowed_calls]; exact hc1
    -- third call: denied
    have hb3 : (is_allowed (is_allowed (is_allowed (freshLimiter 2 60) "k" 0).2 "k" 0).2
        "k" 0).1 = false := by
      rw [is_allowed_fst, hs2, hp2, hc2]
      norm_num [List.filter_cons]
    have hs3 : dget (is_allowed (is_allowed (is_allowed (freshLimiter 2 60) "k" 0).2
        "k" 0).2 "k" 0).2 "k" = [(0 : ℚ), 0] := by
      rw [is_allowed_dget_self, hs2, hp2, hc2]
      norm_num [List.filter_cons]
    have hp3 : (((is_allowed (is_allowed (is_allowed (freshLimiter 2 60) "k" 0).2 "k" 0).2
        "k" 0).2).period : ℚ) = 60 := by
      rw [is_allowed_period]; exact hp2
    have hc3 : ((is_allowed (is_allowed (is_allowed (freshLimiter 2 60) "k" 0).2 "k" 0).2
        "k" 0).2).calls = 2 := by
      rw [is_allowed_calls]; exact hc2
    refine ⟨hb1, hb2, hb3, ?_⟩
    rw [remaining_fst, hs3, hp3, hc3]
    norm_num [List.filter_cons]

/-- Witness for C2: the three-call scenario extracted at the concrete
freshly-built limiter. -/
theorem is_allowed_behavior_witness :
    (is_allowed (freshLimiter 2 60) "k" 0).1 = true ∧
    (is_allowed (is_allowed (freshLimiter 2 60) "k" 0).2 "k" 0).1 = true ∧
    (is_allowed (is_allowed (is_allowed (freshLimiter 2 60) "k" 0).2 "k" 0).2 "k" 0).1
      = false := by
  have h := (is_allowed_behavior (freshLimiter 2 60) "k" 0).2 (freshLimiter 2 60) rfl
  exact ⟨h.1, h.2.1, h.2.2.1⟩

/-! ## Claim C5: behavior of `get_remaining_calls` -/

/-- Claim C5: `get_remaining_calls` prunes the key's history and returns
`max 0 (calls - pruned_count)`, mutating nothing beyond the pruning and
recording no call; when every stored timestamp for the key is still inside
the window and the count does not exceed the capacity, the result is exactly
`calls - count` — in particular, after `k` granted calls on a fresh key the
result is `calls - k` (instantiated below with `k = 2` on
`RateLimiter(5, 60)`, giving `3`). -/
theorem get_remaining_calls_behavior (rl : RateLimiter) (key : Key) (now : ℚ) :
    ((get_remaining_calls rl key now).1 =
        max 0 (rl.calls -
          (((dget rl key).filter (fun ts => decide (now - (rl.period : ℚ) < ts))).length : ℤ)) ∧
      (get_remaining_calls rl key now).2 = cleanOldRecords rl key now) ∧
    ((∀ ts ∈ dget rl key, now - (rl.period : ℚ) < ts) →
      ((dget rl key).length : ℤ) ≤ rl.calls →
      (get_remaining_calls rl key now).1 = rl.calls - ((dget rl key).length : ℤ)) ∧
    (∀ rl5, mkRateLimiter 5 60 = Except.ok rl5 →
      (get_remaining_calls (is_allowed (is_allowed rl5 "a" 0).2 "a" 0).2 "a" 0).1 = 3) := by
  refine ⟨⟨remaining_fst rl key now, remaining_snd rl key now⟩, ?_, ?_⟩
  · intro hin hle
    rw [remaining_fst]
    have hfilter : (dget rl key).filter (fun ts => decide (now - (rl.period : ℚ) < ts))
        = dget rl key := by
      apply List.filter_eq_self.mpr
      intro a ha
      simpa using hin a ha
    rw [hfilter]
    omega
  · intro rl5 hmk
    obtain ⟨-, -, rfl⟩ := mk_ok_cases 5 60 rl5 hmk
    have h0 : dget (freshLimiter 5 60) "a" = ([] : List ℚ) := rfl
    have hp0 : ((freshLimiter 5 60).period : ℚ) = 60 := by norm_num [freshLimiter]
    have hc0 : (freshLimiter 5 60).calls = 5 := rfl
    have hs1 : dget (is_allowed (freshLimiter 5 60) "a" 0).2 "a" = [(0 : ℚ)] := by
      rw [is_allowed_dget_self, h0, hc0]
      norm_num
    have hp1 : (((is_allowed (freshLimiter 5 60) "a" 0).2).period : ℚ) = 60 := by
      rw [is_allowed_period]; exact hp0
    have hc1 : ((is_allowed (freshLimiter 5 60) "a" 0).2).calls = 5 := by
      rw [is_allowed_calls]; exact hc0
    have hs2 : dget (is_allowed (is_allowed (freshLimiter 5 60) "a" 0).2 "a" 0).2 "a"
        = [(0 : ℚ), 0] := by
      rw [is_allowed_dget_self, hs1, hp1, hc1]
      norm_num [List.filter_cons]
    have hp2 : (((is_allowed (is_allowed (freshLimiter 5 60) "a" 0).2 "a" 0).2).period : ℚ)
        = 60 := by
      rw [is_allowed_period]; exact hp1
    have hc2 : ((is_allowed (is_allowed (freshLimiter 5 60) "a" 0).2 "a" 0).2).calls = 5 := by
      rw [is_allowed_calls]; exact hc1
    rw [remaining_fst, hs2, hp2, hc2]
    norm_num [List.filter_cons]

/-- Witness for C5: a saturated capacity-1 state holding one in-window
timestamp reports zero remaining calls. -/
theorem get_remaining_calls_behavior_witness :
    (get_remaining_calls rlFull "k" 0).1 = 0 := by
  have hd : dget rlFull "k" = [(0 : ℚ)] := rfl
  have hp : (rlFull.period : ℚ) = 60 := by norm_num [rlFull]
  have hc : rlFull.calls = 1 := rfl
  have h := (get_remaining_calls_behavior rlFull "k" 0).2.1
    (by rw [hd, hp]; intro ts hts; simp only [List.mem_singleton] at hts; rw [hts]; norm_num)
    (by rw [hd, hc]; norm_num)
  rw [h, hd, hc]
  norm_num

/-! ## Claim C4 (corrected): `get_reset_time` does not prune -/

/-- A limiter state whose only stored timestamp (10) is already outside the
window at clock reading 100 (window width 60). -/
def rlStale : RateLimiter :=
  { calls := 2, period := 60, vals := fun _ => [10], dom := fun _ => true }

/-- Counterexample to C4 as stated: with window 60 and a single stored
timestamp 10, at clock reading 100 every stored timestamp has expired
(`10 ≤ 100 - 60`), yet `get_reset_time` returns `some 0`, not "no value" —
the method does not prune before computing. -/
theorem get_reset_time_stale_not_none :
    dget rlStale "k" = [(10 : ℚ)] ∧
    (10 : ℚ) ≤ (100 : ℚ) - (rlStale.period : ℚ) ∧
    (get_reset_time rlStale "k" 100).1 = some 0 ∧
    (get_reset_time rlStale "k" 100).1 ≠ none := by
  have hd : dget rlStale "k" = [(10 : ℚ)] := rfl
  have hp : (rlStale.period : ℚ) = 60 := by norm_num [rlStale]
  have hval : (get_reset_time rlStale "k" 100).1 = some 0 := by
    rw [reset_fst, hd, hp]
    norm_num [listMin]
  refine ⟨hd, ?_, hval, ?_⟩
  · rw [hp]
    norm_num
  · rw [hval]
    exact Option.some_ne_none 0

/-- Claim C4 amended: `get_reset_time` does not prune.  It returns "no
value" exactly when the key's stored (possibly stale) list is empty — in
particular for a key never recorded — and otherwise returns
`max 0 (oldest + period - now)` where `oldest` is the minimum stored
timestamp, which yields `some 0` (not "no value") when every stored
timestamp has already expired; the state change is exactly the `defaultdict`
touch of the key. -/
theorem get_reset_time_behavior (rl : RateLimiter) (key : Key) (now : ℚ) :
    ((get_reset_time rl key now).1 = none ↔ dget rl key = []) ∧
    (dget rl key ≠ [] →
      ∃ oldest, oldest ∈ dget rl key ∧ (∀ t ∈ dget rl key, oldest ≤ t) ∧
        (get_reset_time rl key now).1 = some (max 0 (oldest + (rl.period : ℚ) - now))) ∧
    (get_reset_time rl key now).2 = dtouch rl key := by
  refine ⟨?_, ?_, reset_snd rl key now⟩
  · rw [reset_fst]
    by_cases h : (dget rl key).isEmpty
    · simp [h, List.isEmpty_iff.mp h]
    · simp only [h, if_false]
      constructor
      · intro hc; cases hc
      · intro hc
        exact absurd (by rw [hc]; rfl) h
  · intro hne
    have hie : (dget rl key).isEmpty = false := by
      rw [List.isEmpty_eq_false_iff_exists_mem]
      rcases List.exists_mem_of_ne_nil _ hne with ⟨x, hx⟩
      exact ⟨x, hx⟩
    refine ⟨listMin (dget rl key), listMin_mem _ hne, listMin_le _, ?_⟩
    rw [reset_fst, hie]
    simp

/-- Witness for the amended C4: on the stale state at clock reading 40 the
oldest stored timestamp is 10, and the reported reset time is
`max 0 (10 + 60 - 40) = 30`. -/
theorem get_reset_time_behavior_witness :
    (get_reset_time rlStale "k" 40).1 = some 30 := by
  have hd : dget rlStale "k" = [(10 : ℚ)] := rfl
  have hp : (rlStale.period : ℚ) = 60 := by norm_num [rlStale]
  obtain ⟨o, ho, -, hres⟩ := (get_reset_time_behavior rlStale "k" 40).2.1
    (by rw [hd]; simp)
  rw [hd] at ho
  simp only [List.mem_singleton] at ho
  rw [hres, ho, hp]
  norm_num

/-! ## Claim C7: key independence -/

theorem runSt_dget_untouched (tr : List Event) :
    ∀ (rl : RateLimiter) (B : Key), (∀ e ∈ tr, e.key ≠ B) →
      dget (runSt rl tr) B = dget rl B := by
  induction tr with
  | nil => intro rl B _; rfl
  | cons e es ih =>
    intro rl B h
    have hstep : dget (stepSt rl e) B = dget rl B :=
      stepSt_dget_ne rl e B (Ne.symm (h e (List.mem_cons_self e es)))
    calc dget (runSt rl (e :: es)) B = dget (runSt (stepSt rl e) es) B := rfl
    _ = dget (stepSt rl e) B := ih (stepSt rl e) B (fun f hf => h f (List.mem_cons_of_mem e hf))
    _ = dget rl B := hstep

theorem runSt_calls (tr : List Event) :
    ∀ rl : RateLimiter, (runSt rl tr).calls = rl.calls := by
  induction tr with
  | nil => intro rl; rfl
  | cons e es ih =>
    intro rl
    calc (runSt rl (e :: es)).calls = (runSt (stepSt rl e) es).calls := rfl
    _ = (stepSt rl e).calls := ih (stepSt rl e)
    _ = rl.calls := stepSt_calls rl e

theorem runSt_period (tr : List Event) :
    ∀ rl : RateLimiter, (runSt rl tr).period = rl.period := by
  induction tr with
  | nil => intro rl; rfl
  | cons e es ih =>
    intro rl
    calc (runSt rl (e :: es)).period = (runSt (stepSt rl e) es).period := rfl
    _ = (stepSt rl e).period := ih (stepSt rl e)
    _ = rl.period := stepSt_period rl e

/-- Claim C7: any sequence of operations performed under keys other than `B`
leaves `B`'s stored history unchanged and does not change the admission
verdict, the remaining quota, or the reset time subsequently reported for
`B`. -/
theorem key_independence (rl : RateLimiter) (tr : List Event) (B : Key)
    (h : ∀ e ∈ tr, e.key ≠ B) :
    dget (runSt rl tr) B = dget rl B ∧
    (∀ t, (is_allowed (runSt rl tr) B t).1 = (is_allowed rl B t).1) ∧
    (∀ t, (get_remaining_calls (runSt rl tr) B t).1 = (get_remaining_calls rl B t).1) ∧
    (∀ t, (get_reset_time (runSt rl tr) B t).1 = (get_reset_time rl B t).1) := by
  have hd := runSt_dget_untouched tr rl B h
  have hc := runSt_calls tr rl
  have hp := runSt_period tr rl
  refine ⟨hd, ?_, ?_, ?_⟩
  · intro t
    rw [is_allowed_fst, is_allowed_fst, hd, hc, hp]
  · intro t
    rw [remaining_fst, remaining_fst, hd, hc, hp]
  · intro t
    rw [reset_fst, reset_fst, hd, hp]

/-- A concrete trace exhausting key "a": five admission checks at time 0. -/
def traceA : List Event :=
  [⟨OpKind.allowOp, "a", 0⟩, ⟨OpKind.allowOp, "a", 0⟩, ⟨OpKind.allowOp, "a", 0⟩,
   ⟨OpKind.allowOp, "a", 0⟩, ⟨OpKind.allowOp, "a", 0⟩]

/-- Witness for C7: after exhausting key "a" on `RateLimiter(5, 60)`, key
"b"'s history and admission verdict are what they were on the fresh
limiter. -/
theorem key_independence_witness :
    dget (runSt (freshLimiter 5 60) traceA) "b" = dget (freshLimiter 5 60) "b" ∧
    (is_allowed (runSt (freshLimiter 5 60) traceA) "b" 0).1
      = (is_allowed (freshLimiter 5 60) "b" 0).1 := by
  have h := key_independence (freshLimiter 5 60) traceA "b" (by
    intro e he
    simp only [traceA, List.mem_cons, List.not_mem_nil, or_false] at he
    rcases he with h1 | h1 | h1 | h1 | h1 <;> rw [h1] <;> decide)
  exact ⟨h.1, h.2.1 0⟩

/-! ## Claim C8 (corrected): queries also create entries -/

/-- Counterexample to C8 as stated: on a freshly constructed
`RateLimiter(2, 60)` the key "x" has no entry, yet a single
`get_remaining_calls` query (through pruning's write-back) and a single
`get_reset_time` query (through the `defaultdict` read) each create a
retained entry for "x". -/
theorem query_creates_entry :
    mkRateLimiter 2 60 = Except.ok (freshLimiter 2 60) ∧
    (freshLimiter 2 60).dom "x" = false ∧
    ((get_remaining_calls (freshLimiter 2 60) "x" 0).2).dom "x" = true ∧
    ((get_reset_time (freshLimiter 2 60) "x" 0).2).dom "x" = true := by
  refine ⟨rfl, rfl, ?_, ?_⟩
  · rw [remaining_snd]
    exact dom_clean_self _ _ _
  · rw [reset_snd]
    exact dom_dset_self _ _ _

/-- Claim C8 amended: an entry for a key is created lazily on the first
operation of any kind that touches the key — admission checks, and equally
the two query operations — and no operation creates or removes entries for
any other key. -/
theorem entry_creation_behavior (rl : RateLimiter) (e : Event) :
    (stepSt rl e).dom e.key = true ∧
    (∀ k, k ≠ e.key → (stepSt rl e).dom k = rl.dom k) := by
  constructor
  · cases ho : e.op <;> simp only [stepSt, ho]
    · rw [is_allowed_snd]
      split
      · exact dom_dset_self _ _ _
      · exact dom_clean_self _ _ _
    · rw [remaining_snd]
      exact dom_clean_self _ _ _
    · rw [reset_snd]
      exact dom_dset_self _ _ _
  · intro k hk
    cases ho : e.op <;> simp only [stepSt, ho]
    · rw [is_allowed_snd]
      split
      · rw [dom_dset_ne _ _ _ _ hk, dom_clean_ne _ _ _ _ hk]
      · rw [dom_clean_ne _ _ _ _ hk]
    · rw [remaining_snd, dom_clean_ne _ _ _ _ hk]
    · rw [reset_snd]
      exact dom_dset_ne _ _ _ _ hk

/-- Witness for the amended C8: an admission check on "a" creates "a"'s
entry and leaves "b" absent. -/
theorem entry_creation_behavior_witness :
    (stepSt (freshLimiter 2 60) ⟨OpKind.allowOp, "a", 0⟩).dom "a" = true ∧
    (stepSt (freshLimiter 2 60) ⟨OpKind.allowOp, "a", 0⟩).dom "b" = false := by
  have h := entry_creation_behavior (freshLimiter 2 60) ⟨OpKind.allowOp, "a", 0⟩
  exact ⟨h.1, by rw [h.2 "b" (by decide)]; rfl⟩

/-! ## Trace machinery shared by the sliding-window and storage invariants -/

theorem granted_cons (rl : RateLimiter) (e : Event) (es : List Event) (k : Key) :
    granted rl (e :: es) k =
      (if e.op = OpKind.allowOp ∧ e.key = k ∧ (is_allowed rl e.key e.time).1 = true
       then [e.time] else []) ++ granted (stepSt rl e) es k := rfl

theorem filter_cutoff_collapse (l : List ℚ) (p cc now : ℚ) (h : cc ≤ now) :
    (l.filter (fun ts => decide (cc - p < ts))).filter (fun ts => decide (now - p < ts)) =
      l.filter (fun ts => decide (now - p < ts)) := by
  rw [List.filter_filter]
  apply List.filter_congr
  intro x _
  by_cases hx : now - p < x
  · have hcc : cc - p < x := lt_of_le_of_lt (by linarith) hx
    simp [hx, hcc]
  · simp [hx]

theorem clean_filter_past (rl : RateLimiter) (key : Key) (now cc : ℚ) (past : List ℚ)
    (hcc : cc ≤ now)
    (hdg : dget rl key = past.filter (fun ts => decide (cc - (rl.period : ℚ) < ts))) :
    (dget rl key).filter (fun ts => decide (now - (rl.period : ℚ) < ts)) =
      past.filter (fun ts => decide (now - (rl.period : ℚ) < ts)) := by
  rw [hdg]
  exact filter_cutoff_collapse past (rl.period : ℚ) cc now hcc

theorem inWindow_true_iff (p : ℤ) (W t : ℚ) :
    inWindow p W t = true ↔ (W - (p : ℚ) < t ∧ t ≤ W) := by
  simp [inWindow]

theorem chain_timesLB (e : Event) (es : List Event)
    (h : List.Chain' (fun a b : Event => a.time ≤ b.time) (e :: es)) :
    timesLB e.time (e :: es) := by
  induction es generalizing e with
  | nil => exact ⟨le_refl _, trivial⟩
  | cons f fs ih =>
    rw [List.chain'_cons] at h
    exact ⟨le_refl _, h.1, (ih f h.2).2⟩

/-! ## Claim C10: stored lists stay short and sorted -/

theorem step_bound_sorted (rl : RateLimiter) (e : Event) (T : ℚ) (hT : T ≤ e.time)
    (h : ∀ k, ((dget rl k).length : ℤ) ≤ rl.calls ∧ (dget rl k).Pairwise (· ≤ ·) ∧
      ∀ ts ∈ dget rl k, ts ≤ T) :
    ∀ k, ((dget (stepSt rl e) k).length : ℤ) ≤ rl.calls ∧
      (dget (stepSt rl e) k).Pairwise (· ≤ ·) ∧
      ∀ ts ∈ dget (stepSt rl e) k, ts ≤ e.time := by
  intro k
  by_cases hk : k = e.key
  case neg =>
    rw [stepSt_dget_ne rl e k hk]
    exact ⟨(h k).1, (h k).2.1, fun ts hts => le_trans ((h k).2.2 ts hts) hT⟩
  case pos =>
    subst hk
    set f := (dget rl e.key).filter (fun ts => decide (e.time - (rl.period : ℚ) < ts)) with hf
    have hflen : ((f.length : ℤ)) ≤ ((dget rl e.key).length : ℤ) := by
      exact_mod_cast List.length_filter_le _ _
    have hfpair : f.Pairwise (· ≤ ·) := (h e.key).2.1.filter _
    have hfmemT : ∀ ts ∈ f, ts ≤ T := fun ts hts =>
      (h e.key).2.2 ts (List.mem_of_mem_filter hts)
    cases ho : e.op <;> simp only [stepSt, ho]
    · -- is_allowed
      rw [is_allowed_dget_self, ← hf]
      by_cases hcond : (f.length : ℤ) < rl.calls
      · rw [if_pos hcond]
        refine ⟨?_, ?_, ?_⟩
        · simp only [List.length_append, List.length_singleton]
          push_cast
          omega
        · rw [List.pairwise_append]
          refine ⟨hfpair, List.pairwise_singleton _ _, fun a ha b hb => ?_⟩
          rw [List.mem_singleton] at hb
          subst hb
          exact le_trans (hfmemT a ha) hT
        · intro ts hts
          rcases List.mem_append.mp hts with h1 | h1
          · exact le_trans (hfmemT ts h1) hT
          · rw [List.mem_singleton] at h1
            subst h1
            exact le_refl _
      · rw [if_neg hcond]
        exact ⟨le_trans hflen (h e.key).1, hfpair, fun ts hts => le_trans (hfmemT ts hts) hT⟩
    · -- get_remaining_calls
      rw [remaining_snd, clean_dget_self, ← hf]
      exact ⟨le_trans hflen (h e.key).1, hfpair, fun ts hts => le_trans (hfmemT ts hts) hT⟩
    · -- get_reset_time
      rw [reset_snd, dget_dtouch]
      exact ⟨(h e.key).1, (h e.key).2.1, fun ts hts => le_trans ((h e.key).2.2 ts hts) hT⟩

theorem run_bound_sorted (tr : List Event) :
    ∀ (rl : RateLimiter) (T : ℚ), timesLB T tr →
      (∀ k, ((dget rl k).length : ℤ) ≤ rl.calls ∧ (dget rl k).Pairwise (· ≤ ·) ∧
        ∀ ts ∈ dget rl k, ts ≤ T) →
      ∀ k, ((dget (runSt rl tr) k).length : ℤ) ≤ rl.calls ∧
        (dget (runSt rl tr) k).Pairwise (· ≤ ·) := by
  induction tr with
  | nil => intro rl T _ h k; exact ⟨(h k).1, (h k).2.1⟩
  | cons e es ih =>
    intro rl T hLB h k
    have hstep := step_bound_sorted rl e T hLB.1 h
    have hcalls := stepSt_calls rl e
    have hrun := ih (stepSt rl e) e.time hLB.2 (by
      intro k2
      refine ⟨?_, (hstep k2).2.1, (hstep k2).2.2⟩
      rw [hcalls]
      exact (hstep k2).1)
    rw [hcalls] at hrun
    exact hrun k

/-- Claim C10: starting from a freshly constructed limiter, after any
sequence of public operations with non-decreasing clock readings, every
key's stored timestamp list holds at most `calls` entries and its entries
are in non-decreasing order. -/
theorem storage_bound_sorted (c p : ℤ) (rl0 : RateLimiter)
    (hmk : mkRateLimiter c p = Except.ok rl0)
    (tr : List Event) (hmono : List.Chain' (fun a b : Event => a.time ≤ b.time) tr)
    (k : Key) :
    ((dget (runSt rl0 tr) k).length : ℤ) ≤ c ∧
    (dget (runSt rl0 tr) k).Pairwise (· ≤ ·) := by
  obtain ⟨hc, -, rfl⟩ := mk_ok_cases c p rl0 hmk
  cases tr with
  | nil =>
    constructor
    · show (((dget (freshLimiter c p) k).length : ℤ)) ≤ c
      have hd : dget (freshLimiter c p) k = [] := rfl
      rw [hd]
      simp only [List.length_nil, Nat.cast_zero]
      omega
    · show (dget (freshLimiter c p) k).Pairwise (· ≤ ·)
      have : dget (freshLimiter c p) k = [] := rfl
      rw [this]
      exact List.Pairwise.nil
  | cons e es =>
    have hLB := chain_timesLB e es hmono
    have h0 : ∀ k2, ((dget (freshLimiter c p) k2).length : ℤ) ≤ (freshLimiter c p).calls ∧
        (dget (freshLimiter c p) k2).Pairwise (· ≤ ·) ∧
        ∀ ts ∈ dget (freshLimiter c p) k2, ts ≤ e.time := by
      intro k2
      have hd : dget (freshLimiter c p) k2 = [] := rfl
      rw [hd]
      refine ⟨?_, List.Pairwise.nil, by simp⟩
      show ((([] : List ℚ).length : ℤ)) ≤ c
      simp only [List.length_nil, Nat.cast_zero]
      omega
    exact run_bound_sorted (e :: es) (freshLimiter c p) e.time hLB h0 k

/-- A concrete trace: three admission checks on "k" at time 0. -/
def trace3 : List Event :=
  [⟨OpKind.allowOp, "k", 0⟩, ⟨OpKind.allowOp, "k", 0⟩, ⟨OpKind.allowOp, "k", 0⟩]

/-- Witness for C10: after three immediate admission checks on
`RateLimiter(2, 60)` the stored list for "k" has at most two entries, in
order. -/
theorem storage_bound_sorted_witness :
    ((dget (runSt (freshLimiter 2 60) trace3) "k").length : ℤ) ≤ 2 ∧
    (dget (runSt (freshLimiter 2 60) trace3) "k").Pairwise (· ≤ ·) :=
  storage_bound_sorted 2 60 (freshLimiter 2 60) rfl trace3
    (by simp [trace3, List.chain'_cons]) "k"

/-! ## Claim C1: the sliding-window capacity bound -/

theorem window_bound_aux (tr : List Event) :
    ∀ (rl : RateLimiter) (past : Key → List ℚ) (T : ℚ),
      1 ≤ rl.period →
      timesLB T tr →
      (∀ k, ∃ cc : ℚ, cc ≤ T ∧
        dget rl k = (past k).filter (fun ts => decide (cc - (rl.period : ℚ) < ts))) →
      (∀ k ts, ts ∈ past k → ts ≤ T) →
      (∀ k W, (((past k).countP (inWindow rl.period W) : ℤ)) ≤ rl.calls) →
      ∀ k W, (((past k ++ granted rl tr k).countP (inWindow rl.period W) : ℤ)) ≤ rl.calls := by
  induction tr with
  | nil =>
    intro rl past T hp hLB hcons hpast hwin k W
    simpa [granted] using hwin k W
  | cons e es ih =>
    intro rl past T hp hLB hcons hpast hwin k W
    have hT : T ≤ e.time := hLB.1
    -- consistency of the state with the extended grant history
    have hcons' : ∀ k2, ∃ cc : ℚ, cc ≤ e.time ∧
        dget (stepSt rl e) k2 =
          (if e.op = OpKind.allowOp ∧ e.key = k2 ∧ (is_allowed rl e.key e.time).1 = true
           then past k2 ++ [e.time] else past k2).filter
            (fun ts => decide (cc - (rl.period : ℚ) < ts)) := by
      intro k2
      by_cases hk2 : e.key = k2
      case neg =>
        obtain ⟨cc, hccT, hdg⟩ := hcons k2
        refine ⟨cc, le_trans hccT hT, ?_⟩
        rw [if_neg (by rintro ⟨-, h2, -⟩; exact hk2 h2)]
        rw [stepSt_dget_ne rl e k2 (fun hh => hk2 hh.symm)]
        exact hdg
      case pos =>
        subst hk2
        cases ho : e.op
        · -- is_allowed on this key
          by_cases hres : (is_allowed rl e.key e.time).1 = true
          · obtain ⟨cc, hccT, hdg⟩ := hcons e.key
            refine ⟨e.time, le_refl _, ?_⟩
            rw [if_pos ⟨rfl, rfl, hres⟩]
            have hcond : (((dget rl e.key).filter
                (fun ts => decide (e.time - (rl.period : ℚ) < ts))).length : ℤ) < rl.calls := by
              rw [is_allowed_fst] at hres
              simpa using hres
            simp only [stepSt, ho]
            rw [is_allowed_dget_self, if_pos hcond]
            rw [clean_filter_past rl e.key e.time cc (past e.key) (le_trans hccT hT) hdg]
            rw [List.filter_append]
            congr 1
            have hp0 : (0 : ℚ) < (rl.period : ℚ) := by
              have h01 : (0 : ℤ) < rl.period := by omega
              exact_mod_cast h01
            simp [List.filter_cons, hp0]
          · obtain ⟨cc, hccT, hdg⟩ := hcons e.key
            refine ⟨e.time, le_refl _, ?_⟩
            rw [if_neg (by rintro ⟨-, -, h3⟩; exact hres h3)]
            have hncond : ¬ ((((dget rl e.key).filter
                (fun ts => decide (e.time - (rl.period : ℚ) < ts))).length : ℤ) < rl.calls) := by
              rw [is_allowed_fst] at hres
              simpa using hres
            simp only [stepSt, ho]
            rw [is_allowed_dget_self, if_neg hncond]
            exact clean_filter_past rl e.key e.time cc (past e.key) (le_trans hccT hT) hdg
        · -- get_remaining_calls on this key
          obtain ⟨cc, hccT, hdg⟩ := hcons e.key
          refine ⟨e.time, le_refl _, ?_⟩
          rw [if_neg (by rintro ⟨h1, -, -⟩; cases h1)]
          simp only [stepSt, ho]
          rw [remaining_snd, clean_dget_self]
          exact clean_filter_past rl e.key e.time cc (past e.key) (le_trans hccT hT) hdg
        · -- get_reset_time on this key
          obtain ⟨cc, hccT, hdg⟩ := hcons e.key
          refine ⟨cc, le_trans hccT hT, ?_⟩
          rw [if_neg (by rintro ⟨h1, -, -⟩; cases h1)]
          simp only [stepSt, ho]
          rw [reset_snd, dget_dtouch]
          exact hdg
    -- the extended grant history stays below the new clock reading
    have hpastB : ∀ k2 ts, ts ∈ (if e.op = OpKind.allowOp ∧ e.key = k2 ∧
        (is_allowed rl e.key e.time).1 = true then past k2 ++ [e.time] else past k2) →
        ts ≤ e.time := by
      intro k2 ts hts
      by_cases hP : e.op = OpKind.allowOp ∧ e.key = k2 ∧ (is_allowed rl e.key e.time).1 = true
      · rw [if_pos hP] at hts
        rcases List.mem_append.mp hts with h1 | h1
        · exact le_trans (hpast k2 ts h1) hT
        · rw [List.mem_singleton] at h1
          rw [h1]
      · rw [if_neg hP] at hts
        exact le_trans (hpast k2 ts hts) hT
    -- the window bound extends to the new grant
    have hwinC : ∀ k2 W2, (((if e.op = OpKind.allowOp ∧ e.key = k2 ∧
        (is_allowed rl e.key e.time).1 = true then past k2 ++ [e.time] else past k2).countP
          (inWindow rl.period W2) : ℤ)) ≤ rl.calls := by
      intro k2 W2
      by_cases hP : e.op = OpKind.allowOp ∧ e.key = k2 ∧ (is_allowed rl e.key e.time).1 = true
      case neg =>
        rw [if_neg hP]
        exact hwin k2 W2
      case pos =>
        obtain ⟨ho, hkeq, hres⟩ := hP
        subst hkeq
        rw [if_pos ⟨ho, rfl, hres⟩]
        rw [List.countP_append]
        by_cases hin : inWindow rl.period W2 e.time = true
        · -- the new admission time lies inside this window
          obtain ⟨cc, hccT, hdg⟩ := hcons e.key
          have hcond : (((dget rl e.key).filter
              (fun ts => decide (e.time - (rl.period : ℚ) < ts))).length : ℤ) < rl.calls := by
            rw [is_allowed_fst] at hres
            simpa using hres
          rw [clean_filter_past rl e.key e.time cc (past e.key) (le_trans hccT hT) hdg] at hcond
          have hWin2 := (inWindow_true_iff rl.period W2 e.time).mp hin
          have hmono2 : (past e.key).countP (inWindow rl.period W2) ≤
              (past e.key).countP (fun ts => decide (e.time - (rl.period : ℚ) < ts)) := by
            apply List.countP_mono_left
            intro x hx hPx
            have hxw := (inWindow_true_iff rl.period W2 x).mp hPx
            simp only [decide_eq_true_eq]
            linarith [hxw.1, hWin2.2]
          have hcnt : (past e.key).countP (fun ts => decide (e.time - (rl.period : ℚ) < ts))
              = ((past e.key).filter (fun ts => decide (e.time - (rl.period : ℚ) < ts))).length :=
            List.countP_eq_length_filter _ _
          have hone : ([e.time] : List ℚ).countP (inWindow rl.period W2) ≤ 1 := by
            calc ([e.time] : List ℚ).countP (inWindow rl.period W2)
                ≤ ([e.time] : List ℚ).length := List.countP_le_length _
            _ = 1 := rfl
          push_cast
          omega
        · have hzero : ([e.time] : List ℚ).countP (inWindow rl.period W2) = 0 := by
            simp [List.countP_cons, hin]
          rw [hzero]
          simpa using hwin e.key W2
    have hper : (stepSt rl e).period = rl.period := stepSt_period rl e
    have hcal : (stepSt rl e).calls = rl.calls := stepSt_calls rl e
    have Hfin := ih (stepSt rl e)
      (fun k2 => if e.op = OpKind.allowOp ∧ e.key = k2 ∧ (is_allowed rl e.key e.time).1 = true
        then past k2 ++ [e.time] else past k2)
      e.time
      (by rw [hper]; exact hp)
      hLB.2
      (by simp only [hper]; exact hcons')
      hpastB
      (by simp only [hper, hcal]; exact hwinC)
      k W
    simp only [hper, hcal] at Hfin
    rw [granted_cons]
    have hre : past k ++ ((if e.op = OpKind.allowOp ∧ e.key = k ∧
        (is_allowed rl e.key e.time).1 = true then [e.time] else []) ++
          granted (stepSt rl e) es k) =
        (if e.op = OpKind.allowOp ∧ e.key = k ∧ (is_allowed rl e.key e.time).1 = true
         then past k ++ [e.time] else past k) ++ granted (stepSt rl e) es k := by
      by_cases hP : e.op = OpKind.allowOp ∧ e.key = k ∧ (is_allowed rl e.key e.time).1 = true
      · rw [if_pos hP, if_pos hP, List.append_assoc]
      · rw [if_neg hP, if_neg hP, List.nil_append]
    rw [hre]
    exact Hfin

/-- Claim C1: on any limiter accepted by the constructor, along any trace of
public operations with non-decreasing clock readings, for every key and
every sliding window `(W - period, W]` the number of `is_allowed` calls that
return `true` with a clock reading in that window is at most `calls`. -/
theorem sliding_window_capacity (c p : ℤ) (rl0 : RateLimiter)
    (hmk : mkRateLimiter c p = Except.ok rl0)
    (tr : List Event) (hmono : List.Chain' (fun a b : Event => a.time ≤ b.time) tr)
    (k : Key) (W : ℚ) :
    (((granted rl0 tr k).countP (inWindow p W) : ℤ)) ≤ c := by
  obtain ⟨hc, hp, rfl⟩ := mk_ok_cases c p rl0 hmk
  cases tr with
  | nil =>
    simp only [granted, List.countP_nil, Nat.cast_zero]
    omega
  | cons e es =>
    have hLB := chain_timesLB e es hmono
    have H := window_bound_aux (e :: es) (freshLimiter c p) (fun _ => ([] : List ℚ)) e.time
      hp
      hLB
      (fun k2 => ⟨e.time, le_refl _, rfl⟩)
      (fun k2 ts hts => absurd hts (List.not_mem_nil ts))
      (fun k2 W2 => by
        show ((((([] : List ℚ)).countP (inWindow (freshLimiter c p).period W2)) : ℤ))
          ≤ (freshLimiter c p).calls
        show (((([] : List ℚ)).countP (inWindow p W2) : ℤ)) ≤ c
        simp only [List.countP_nil, Nat.cast_zero]
        omega)
      k W
    simpa using H

/-- Witness for C1: on `RateLimiter(2, 60)`, with three immediate admission
checks on "k" at time 0, the window ending at 0 holds at most two
admissions. -/
theorem sliding_window_capacity_witness :
    ((granted (freshLimiter 2 60) trace3 "k").countP (inWindow 60 0) : ℤ) ≤ 2 :=
  sliding_window_capacity 2 60 (freshLimiter 2 60) rfl trace3
    (by simp [trace3, List.chain'_cons]) "k" 0

end DevSyncAI
